import Mathlib

/-!
Shallow embedding of the Z5D candidate pipeline of this repository
(files `experiments/z5d-comprehensive-challenge/z5d_pipeline.py` and
`experiments/z5d-comprehensive-challenge/z5d_api.py`), together with
theorems settling the specification claims about it.

Modelling conventions:

* Python arbitrary-precision integers are `ℤ` (or `ℕ` where the value is a
  bit length, list index or fuel).  Python `//` on integers is floor
  division, modelled by `Int.fdiv`; Python `%` is `Int.emod` (for the
  positive moduli used here they coincide with Lean's `%`).
* The density oracle `density_in_range` of `z5d_api.py` produces IEEE-754
  doubles from `math.log`.  Every finite float value is a rational number,
  so the development is parametrised by an arbitrary function
  `ρ : ℤ → ℤ → ℚ` standing for `density_in_range(center, half_width)`;
  theorems quantifying over every `ρ` hold in particular for the concrete
  float computation.  The discrete data the pipeline extracts from a
  density (the step size, always in `[1, 10]`, and the band order, always a
  permutation) is all that candidate generation depends on.
* Likewise the GVA amplitude (`compute_gva_amplitude`, an mpmath value
  stored in the emitted record but never branched on) is an arbitrary
  function `amp : ℤ → ℚ` of the candidate value: the `√N` embedding and
  `k_value` are fixed for one pipeline invocation, so the amplitude is a
  pure function of the candidate.
-/

/-- Python `int.bit_length` on a natural number, i.e. the number of binary
digits (`Nat.size`, with `bit_length 0 = 0` as in Python). -/
def bit_length (n : ℕ) : ℕ := Nat.size n

/-- Source function `adaptive_precision` of `z5d_pipeline.py`:
`max(100, N.bit_length() * 4 + 200)`. -/
def adaptive_precision (N : ℕ) : ℕ := max 100 (bit_length N * 4 + 200)

/-- Python `int(·)` applied to a rational value: truncation toward zero. -/
def pytrunc (q : ℚ) : ℤ := if q < 0 then ⌈q⌉ else ⌊q⌋

/-- Source function `adaptive_step_size` of `z5d_api.py`:
`if density <= 0: return base_step * 10`, otherwise
`min(max(1, int(base_step / (density * 50))), 10)`. -/
def adaptive_step_size (density : ℚ) (base_step : ℤ) : ℤ :=
  if density ≤ 0 then base_step * 10
  else min (max 1 (pytrunc ((base_step : ℚ) / (density * 50)))) 10

/-- Band record of `prioritize_delta_bands` in `z5d_api.py` (dict with keys
center, delta_start, delta_end, density, priority). -/
structure Band where
  center : ℤ
  delta_start : ℤ
  delta_end : ℤ
  density : ℚ
  priority : ℤ
deriving DecidableEq, Inhabited

/-- One iteration of the band-construction loop of `prioritize_delta_bands`:
`delta_start = i * band_width`, `delta_end = min((i+1) * band_width,
delta_max)`, `center_offset = (delta_start + delta_end) // 2`, density
sampled by `density_in_range(sqrt_N + center_offset, band_width // 2)`
(the density oracle is the parameter `ρ`), `priority = i`. -/
def mkBand (ρ : ℤ → ℤ → ℚ) (sqrtN delta_max band_width : ℤ) (i : ℕ) : Band :=
  let ds := (i : ℤ) * band_width
  let de := min (((i : ℤ) + 1) * band_width) delta_max
  let co := Int.fdiv (ds + de) 2
  { center := sqrtN + co
    delta_start := ds
    delta_end := de
    density := ρ (sqrtN + co) (Int.fdiv band_width 2)
    priority := (i : ℤ) }

/-- The band list before sorting: `for i in range(num_bands)` (empty for
`num_bands < 0`, as `range` of a negative bound is in Python). -/
def rawBands (ρ : ℤ → ℤ → ℚ) (sqrtN delta_max num_bands : ℤ) : List Band :=
  (List.range num_bands.toNat).map
    (mkBand ρ sqrtN delta_max (Int.fdiv delta_max num_bands))

/-- Python's `bands.sort(key=lambda b: b['density'], reverse=True)` is a
stable descending sort by density.  A stable sort is extensionally the
unique sort of the index-decorated list by the lexicographic order
(density descending, then original position ascending); `bandLeP` is that
lexicographic order on decorated bands. -/
def bandLeP (a b : ℕ × Band) : Prop :=
  if a.2.density = b.2.density then a.1 ≤ b.1 else b.2.density < a.2.density

instance : DecidableRel bandLeP := fun a b => by unfold bandLeP; infer_instance

instance : IsTotal (ℕ × Band) bandLeP := by
  constructor
  intro a b
  unfold bandLeP
  by_cases h : a.2.density = b.2.density
  · simp only [if_pos h, if_pos h.symm]
    exact Nat.le_total a.1 b.1
  · simp only [if_neg h, if_neg (Ne.symm h)]
    exact (lt_or_gt_of_ne h).symm.imp id id

instance : IsTrans (ℕ × Band) bandLeP := by
  constructor
  intro a b c hab hbc
  unfold bandLeP at *
  by_cases h1 : a.2.density = b.2.density <;>
    by_cases h2 : b.2.density = c.2.density
  · rw [if_pos h1] at hab
    rw [if_pos h2] at hbc
    rw [if_pos (h1.trans h2)]
    exact le_trans hab hbc
  · rw [if_neg h2] at hbc
    rw [if_neg (fun h => h2 (h1.symm.trans h))]
    exact h1 ▸ hbc
  · rw [if_neg h1] at hab
    rw [if_neg (fun h => h1 (h.trans h2.symm))]
    exact h2 ▸ hab
  · rw [if_neg h1] at hab
    rw [if_neg h2] at hbc
    rw [if_neg (fun h => h1 (lt_irrefl _ (h ▸ lt_trans hbc hab)).elim)]
    exact lt_trans hbc hab

/-- The sorted band list (values only, decoration removed). -/
def sortedBands (ρ : ℤ → ℤ → ℚ) (sqrtN delta_max num_bands : ℤ) : List Band :=
  (List.insertionSort bandLeP (rawBands ρ sqrtN delta_max num_bands).enum).map
    Prod.snd

/-- The post-sort pass `for i, band in enumerate(bands): band['priority'] = i`. -/
def reassign (l : List Band) : List Band :=
  l.enum.map fun p => { p.2 with priority := (p.1 : ℤ) }

/-- Source function `prioritize_delta_bands` of `z5d_api.py`.  Returns
`none` for `num_bands = 0`, where the Python code dies with
`ZeroDivisionError` at `band_width = delta_max // num_bands`. -/
def prioritize_delta_bands (ρ : ℤ → ℤ → ℚ) (sqrtN delta_max num_bands : ℤ) :
    Option (List Band) :=
  if num_bands = 0 then none
  else some (reassign (sortedBands ρ sqrtN delta_max num_bands))

/-- A concrete density oracle used to instantiate counterexamples and
witnesses (any fixed rational value would do; the claims proved universally
in `ρ` are instantiated with it, and the value 0 keeps every downstream
computation kernel-evaluable). -/
def densityConst : ℤ → ℤ → ℚ := fun _ _ => 0

/-- Forgetting the (reassigned) priority field. -/
def erasePriority (b : Band) : Band := { b with priority := 0 }

/-- Modelled from the spec: `wheel_residues.is_admissible` (the module
`wheel_residues.py` is imported from the sibling experiment directory
`z5d-informed-gva`, which is not part of this repository snapshot).
Spec §4.1: an integer is admissible when it is free of the wheel primes
2, 3, 5, 7 (wheel modulus 210); the repository's tests assert
`is_admissible(1)` and the inadmissibility of 4, 100, 15, 21, matching
this model. -/
def is_admissible (n : ℤ) : Bool :=
  n % 2 != 0 && n % 3 != 0 && n % 5 != 0 && n % 7 != 0

/-- Iteration helper for `next_admissible`; the fuel 211 always suffices
because any 211 consecutive integers contain one that is `1 mod 210`. -/
def nextAdmAux : ℕ → ℤ → ℤ
  | 0, n => n
  | fuel + 1, n => if is_admissible n then n else nextAdmAux fuel (n + 1)

/-- Modelled from the spec: `wheel_residues.next_admissible`, the next
admissible value ≥ the argument (spec §4.1 and §4.7 step c). -/
def next_admissible (n : ℤ) : ℤ := nextAdmAux 211 n

/-- Candidate record yielded by `generate_z5d_candidates` (dict with keys
candidate, delta, residue, density, amplitude, band_id, step). -/
structure Cand where
  candidate : ℤ
  delta : ℤ
  residue : ℤ
  density : ℚ
  amplitude : ℚ
  band_id : ℕ
  step : ℤ
deriving DecidableEq, Inhabited

/-- The per-band `while current_delta <= delta_end` loop of
`generate_z5d_candidates` in `z5d_pipeline.py`: form `candidate = sqrt_N +
current_delta`; if inadmissible jump to the next admissible value and
recompute `current_delta`, breaking out of the band when it exceeds
`delta_end`; yield the positive candidate; advance `current_delta` by
`step`; if the advanced offset is still ≤ `delta_max`, also try the
negative candidate `sqrt_N - current_delta` (yielded when > 1 and
admissible).  The loop is fuel-indexed; every iteration increases
`current_delta` by at least `step ≥ 1`, so fuel `delta_end - delta_start +
1` (as passed by `scan_band`) is enough for the loop to run to
completion. -/
def scanAux (amp : ℤ → ℚ) (sqrtN delta_max delta_end : ℤ) (density : ℚ)
    (band_idx : ℕ) (step : ℤ) : ℕ → ℤ → List Cand
  | 0, _ => []
  | fuel + 1, delta =>
    if delta_end < delta then []
    else
      let c0 := sqrtN + delta
      let c := if is_admissible c0 then c0 else next_admissible c0
      let d1 := c - sqrtN
      if delta_end < d1 then []
      else
        let pos : Cand :=
          { candidate := c, delta := d1, residue := c % 210
            density := density, amplitude := amp c, band_id := band_idx
            step := step }
        let d2 := d1 + step
        let negs : List Cand :=
          if d2 ≤ delta_max then
            let nc := sqrtN - d2
            if decide (1 < nc) && is_admissible nc then
              [{ candidate := nc, delta := -d2, residue := nc % 210
                 density := density, amplitude := amp nc, band_id := band_idx
                 step := step }]
            else []
          else []
        pos :: (negs ++
          scanAux amp sqrtN delta_max delta_end density band_idx step fuel d2)

/-- One band's scan: the step is `adaptive_step_size(density, base_step=1)`
and the loop starts at `delta_start`. -/
def scan_band (amp : ℤ → ℚ) (sqrtN delta_max : ℤ) (b : Band)
    (band_idx : ℕ) : List Cand :=
  scanAux amp sqrtN delta_max b.delta_end b.density band_idx
    (adaptive_step_size b.density 1)
    (b.delta_end - b.delta_start + 1).toNat b.delta_start

/-- Source function `generate_z5d_candidates` of `z5d_pipeline.py`.  `N` is
used by the source only to derive the working precision (which affects no
emitted field in this model, the amplitude being the abstract `amp`);
candidates are produced band by band in the prioritized order, the band
index of `enumerate(bands)` being attached to each record.  `none` models
the `ZeroDivisionError` raised through `prioritize_delta_bands` when
`num_bands = 0`. -/
def generate_z5d_candidates (ρ : ℤ → ℤ → ℚ) (amp : ℤ → ℚ)
    (N sqrtN delta_max num_bands : ℤ) : Option (List Cand) :=
  (prioritize_delta_bands ρ sqrtN delta_max num_bands).map fun bands =>
    bands.enum.flatMap fun p => scan_band amp sqrtN delta_max p.2 p.1

/-- The candidate values of `scanAux` with the record structure stripped,
for concrete kernel evaluation (`scanVals_eq_map` links the two). -/
def scanVals (sqrtN delta_max delta_end step : ℤ) : ℕ → ℤ → List ℤ
  | 0, _ => []
  | fuel + 1, delta =>
    if delta_end < delta then []
    else
      let c0 := sqrtN + delta
      let c := if is_admissible c0 then c0 else next_admissible c0
      let d1 := c - sqrtN
      if delta_end < d1 then []
      else
        let d2 := d1 + step
        let negs : List ℤ :=
          if d2 ≤ delta_max then
            let nc := sqrtN - d2
            if decide (1 < nc) && is_admissible nc then [nc] else []
          else []
        c :: (negs ++ scanVals sqrtN delta_max delta_end step fuel d2)

/-- The consumer loop of `z5d_pipeline_search`: test `N % candidate == 0`,
return `(candidate, N // candidate)` on success, stop after
`max_candidates` unsuccessful tests. -/
def searchAux (N : ℤ) : ℕ → List Cand → Option (ℤ × ℤ)
  | _, [] => none
  | budget, c :: rest =>
    if N % c.candidate = 0 then some (c.candidate, Int.fdiv N c.candidate)
    else if budget ≤ 1 then none
    else searchAux N (budget - 1) rest

/-- Python `math.isqrt` for nonnegative input. -/
def isqrt (n : ℤ) : ℤ := Int.sqrt n

/-- Source function `z5d_pipeline_search` of `z5d_pipeline.py`: compute
`sqrt_N = isqrt(N)`, generate candidates, test divisibility within the
`max_candidates` budget.  The outer `Option` is the configuration failure
of candidate generation (`num_bands = 0`); the inner one is
found-versus-exhausted. -/
def z5d_pipeline_search (ρ : ℤ → ℤ → ℚ) (amp : ℤ → ℚ) (N : ℤ)
    (max_candidates : ℕ) (delta_max num_bands : ℤ) :
    Option (Option (ℤ × ℤ)) :=
  (generate_z5d_candidates ρ amp N (isqrt N) delta_max num_bands).map
    (searchAux N max_candidates)

/-- A concrete amplitude function for counterexamples and witnesses. -/
def ampZero : ℤ → ℚ := fun _ => 0

/-- Forgetting the amplitude field of a candidate record. -/
def eraseAmp (c : Cand) : Cand := { c with amplitude := 0 }

/-- Claim C4: the required working precision equals
`max(configured_floor, bit_length(N) * 4 + 200)` decimal digits with
floor 100, is monotonically non-decreasing in bit length, and is at least
708 digits at bit length 127 and at least 1520 digits at bit length 330. -/
theorem z5d_C4_precision :
    (∀ N : ℕ, adaptive_precision N = max 100 (bit_length N * 4 + 200)) ∧
    (∀ m n : ℕ, bit_length m ≤ bit_length n →
      adaptive_precision m ≤ adaptive_precision n) ∧
    (∀ N : ℕ, bit_length N = 127 → 708 ≤ adaptive_precision N) ∧
    (∀ N : ℕ, bit_length N = 330 → 1520 ≤ adaptive_precision N) := by
  refine ⟨fun _ => rfl, fun m n h => ?_, fun N h => ?_, fun N h => ?_⟩ <;>
    simp only [adaptive_precision] <;> omega

/-- Witness for C4 at concrete inputs of bit lengths 127 and 330. -/
theorem z5d_C4_precision_witness :
    708 ≤ adaptive_precision (2 ^ 126) ∧ 1520 ≤ adaptive_precision (2 ^ 329) :=
  ⟨z5d_C4_precision.2.2.1 _ (by rw [bit_length, Nat.size_pow]),
   z5d_C4_precision.2.2.2 _ (by rw [bit_length, Nat.size_pow])⟩

/-- Claim C5: for density ≤ 0 the adaptive step is `10 * base_step`;
for positive density it is `max 1 ⌊base_step / (density * 50)⌋` clamped
above (the cap is the constant 10, hence never above `10 * base_step` for
positive `base_step`); the result is always a positive integer. -/
theorem z5d_C5_step_size (d : ℚ) (b : ℤ) (hb : 0 < b) :
    (d ≤ 0 → adaptive_step_size d b = 10 * b) ∧
    (0 < d → adaptive_step_size d b =
      min (max 1 ⌊(b : ℚ) / (d * 50)⌋) 10) ∧
    adaptive_step_size d b ≤ 10 * b ∧
    0 < adaptive_step_size d b := by
  have h10 : (10 : ℤ) ≤ 10 * b := by nlinarith
  refine ⟨fun hd => ?_, fun hd => ?_, ?_, ?_⟩
  · simp [adaptive_step_size, hd, mul_comm]
  · have hd' : ¬ d ≤ 0 := not_le.mpr hd
    have harg : ¬ ((b : ℚ) / (d * 50) < 0) := by
      push_neg
      positivity
    simp [adaptive_step_size, hd', pytrunc, harg]
  · by_cases hd : d ≤ 0
    · simp [adaptive_step_size, hd, mul_comm]
    · simp only [adaptive_step_size, if_neg hd]
      exact le_trans (min_le_right _ _) h10
  · by_cases hd : d ≤ 0
    · simp only [adaptive_step_size, if_pos hd]
      positivity
    · simp only [adaptive_step_size, if_neg hd]
      exact lt_min (lt_of_lt_of_le one_pos (le_max_left _ _)) (by norm_num)

/-- Witness for C5 at density 1, base step 1. -/
theorem z5d_C5_step_size_witness :
    adaptive_step_size 1 1 ≤ 10 * 1 ∧ 0 < adaptive_step_size 1 1 :=
  ⟨(z5d_C5_step_size 1 1 (by decide)).2.2.1,
   (z5d_C5_step_size 1 1 (by decide)).2.2.2⟩

/-- Claim C6: for a fixed positive base step, the adaptive step size is
non-increasing in the density. -/
theorem z5d_C6_step_antitone (b : ℤ) (hb : 0 < b) (d1 d2 : ℚ) (h : d1 ≤ d2) :
    adaptive_step_size d2 b ≤ adaptive_step_size d1 b := by
  have h10 : (10 : ℤ) ≤ 10 * b := by nlinarith
  by_cases h1 : d1 ≤ 0
  · by_cases h2 : d2 ≤ 0
    · simp [adaptive_step_size, h1, h2]
    · simp only [adaptive_step_size, if_pos h1, if_neg h2]
      calc min (max 1 (pytrunc ((b : ℚ) / (d2 * 50)))) 10 ≤ 10 :=
            min_le_right _ _
        _ ≤ 10 * b := h10
        _ = b * 10 := mul_comm _ _
  · have h2 : ¬ d2 ≤ 0 := fun h2 => h1 (le_trans h h2)
    have hd1 : (0 : ℚ) < d1 := not_le.mp h1
    have hd2 : (0 : ℚ) < d2 := not_le.mp h2
    have hdiv : (b : ℚ) / (d2 * 50) ≤ (b : ℚ) / (d1 * 50) := by
      apply div_le_div_of_nonneg_left _ (by positivity) _
      · exact_mod_cast hb.le
      · nlinarith
    have htr : pytrunc ((b : ℚ) / (d2 * 50)) ≤ pytrunc ((b : ℚ) / (d1 * 50)) := by
      have harg1 : ¬ ((b : ℚ) / (d1 * 50) < 0) := by push_neg; positivity
      have harg2 : ¬ ((b : ℚ) / (d2 * 50) < 0) := by push_neg; positivity
      simp only [pytrunc, if_neg harg1, if_neg harg2]
      exact Int.floor_le_floor hdiv
    simp only [adaptive_step_size, if_neg h1, if_neg h2]
    exact min_le_min (max_le_max le_rfl htr) le_rfl

/-- Witness for C6: density 1/100 versus density 1 at base step 1. -/
theorem z5d_C6_step_antitone_witness :
    adaptive_step_size 1 1 ≤ adaptive_step_size (1 / 100) 1 :=
  z5d_C6_step_antitone 1 (by decide) (1 / 100) 1 (by norm_num)

lemma enumFrom_reassign_erase : ∀ (n : ℕ) (l : List Band),
    ((List.enumFrom n l).map fun p => { p.2 with priority := (p.1 : ℤ) }).map
        erasePriority = l.map erasePriority := by
  intro n l
  induction l generalizing n with
  | nil => rfl
  | cons b t ih =>
    simp only [List.enumFrom, List.map_cons]
    rw [ih]
    rfl

lemma reassign_map_erase (l : List Band) :
    (reassign l).map erasePriority = l.map erasePriority :=
  enumFrom_reassign_erase 0 l

lemma reassign_length (l : List Band) : (reassign l).length = l.length := by
  simp [reassign]

lemma sortedBands_perm (ρ : ℤ → ℤ → ℚ) (sqrtN delta_max num_bands : ℤ) :
    List.Perm (sortedBands ρ sqrtN delta_max num_bands)
      (rawBands ρ sqrtN delta_max num_bands) := by
  have h :=
    (List.perm_insertionSort bandLeP
      (rawBands ρ sqrtN delta_max num_bands).enum).map Prod.snd
  rwa [List.enum_map_snd] at h

lemma prioritize_eq_some {ρ : ℤ → ℤ → ℚ} {sqrtN delta_max num_bands : ℤ}
    {out : List Band}
    (hout : prioritize_delta_bands ρ sqrtN delta_max num_bands = some out) :
    out = reassign (sortedBands ρ sqrtN delta_max num_bands) := by
  unfold prioritize_delta_bands at hout
  split at hout
  · exact Option.noConfusion hout
  · exact (Option.some.inj hout).symm

lemma prioritize_erase_perm {ρ : ℤ → ℤ → ℚ} {sqrtN delta_max num_bands : ℤ}
    {out : List Band}
    (hout : prioritize_delta_bands ρ sqrtN delta_max num_bands = some out) :
    List.Perm (out.map erasePriority)
      ((rawBands ρ sqrtN delta_max num_bands).map erasePriority) := by
  rw [prioritize_eq_some hout, reassign_map_erase]
  exact (sortedBands_perm ρ sqrtN delta_max num_bands).map erasePriority

lemma countP_range_cast_eq (n : ℕ) (k : ℤ) :
    (List.range n).countP (fun i : ℕ => decide ((i : ℤ) = k)) =
      if 0 ≤ k ∧ k < (n : ℤ) then 1 else 0 := by
  induction n with
  | zero =>
    rw [List.range_zero, if_neg (by omega)]
    rfl
  | succ n ih =>
    rw [List.range_succ, List.countP_append, ih]
    simp only [List.countP_cons, List.countP_nil, decide_eq_true_eq]
    split_ifs <;> omega

lemma countP_range_band (bw dm x : ℤ) (n : ℕ) (hbw : 0 ≤ bw)
    (hle : (n : ℤ) * bw ≤ dm) :
    (List.range n).countP
      (fun i : ℕ =>
        decide ((i : ℤ) * bw ≤ x ∧ x < min (((i : ℤ) + 1) * bw) dm)) =
      if 0 ≤ x ∧ x < (n : ℤ) * bw then 1 else 0 := by
  have hmin : ∀ i : ℕ, i ∈ List.range n →
      (((i : ℤ) * bw ≤ x ∧ x < min (((i : ℤ) + 1) * bw) dm) ↔
        ((i : ℤ) * bw ≤ x ∧ x < ((i : ℤ) + 1) * bw)) := by
    intro i hi
    have hi' : (i : ℤ) < (n : ℤ) := by exact_mod_cast List.mem_range.mp hi
    have hub : ((i : ℤ) + 1) * bw ≤ dm :=
      le_trans (mul_le_mul_of_nonneg_right (by omega) hbw) hle
    rw [min_eq_left hub]
  have e1 : (List.range n).countP
      (fun i : ℕ =>
        decide ((i : ℤ) * bw ≤ x ∧ x < min (((i : ℤ) + 1) * bw) dm)) =
      (List.range n).countP
        (fun i : ℕ => decide ((i : ℤ) * bw ≤ x ∧ x < ((i : ℤ) + 1) * bw)) :=
    List.countP_congr fun i hi => by
      simpa only [decide_eq_true_eq] using hmin i hi
  rw [e1]
  by_cases hbw0 : bw = 0
  · subst hbw0
    have hz : ∀ i ∈ List.range n,
        ¬((fun i : ℕ => decide ((i : ℤ) * 0 ≤ x ∧ x < ((i : ℤ) + 1) * 0)) i
          = true) := by
      intro i _
      simp only [decide_eq_true_eq, mul_zero, not_and, not_lt]
      intro
      omega
    rw [List.countP_eq_zero.mpr hz, if_neg (by rw [mul_zero]; omega)]
  · have hbwpos : 0 < bw := lt_of_le_of_ne hbw (Ne.symm hbw0)
    have hiff : ∀ i : ℕ,
        (((i : ℤ) * bw ≤ x ∧ x < ((i : ℤ) + 1) * bw) ↔ (i : ℤ) = x / bw) := by
      intro i
      constructor
      · rintro ⟨h1, h2⟩
        have ha : (i : ℤ) ≤ x / bw := (Int.le_ediv_iff_mul_le hbwpos).mpr h1
        have hb : x / bw < (i : ℤ) + 1 := (Int.ediv_lt_iff_lt_mul hbwpos).mpr h2
        omega
      · intro h
        constructor
        · exact (Int.le_ediv_iff_mul_le hbwpos).mp (le_of_eq h)
        · exact (Int.ediv_lt_iff_lt_mul hbwpos).mp (by omega)
    have e2 : (List.range n).countP
        (fun i : ℕ => decide ((i : ℤ) * bw ≤ x ∧ x < ((i : ℤ) + 1) * bw)) =
        (List.range n).countP (fun i : ℕ => decide ((i : ℤ) = x / bw)) :=
      List.countP_congr fun i _ => by
        simpa only [decide_eq_true_eq] using hiff i
    rw [e2, countP_range_cast_eq n (x / bw)]
    have hcond : (0 ≤ x / bw ∧ x / bw < (n : ℤ)) ↔ (0 ≤ x ∧ x < (n : ℤ) * bw) := by
      constructor
      · rintro ⟨h1, h2⟩
        have := (Int.le_ediv_iff_mul_le hbwpos).mp h1
        exact ⟨by linarith [this], (Int.ediv_lt_iff_lt_mul hbwpos).mp h2⟩
      · rintro ⟨h1, h2⟩
        refine ⟨(Int.le_ediv_iff_mul_le hbwpos).mpr (by linarith), ?_⟩
        exact (Int.ediv_lt_iff_lt_mul hbwpos).mpr h2
    simp only [hcond]

/-- Claim C2 does not hold as stated; amended: for every `delta_max > 0` and
`num_bands > 0`, the half-open offset intervals of the returned bands are
pairwise disjoint and their union is exactly
`[0, (delta_max // num_bands) * num_bands)` (each such offset covered
exactly once, independently of the density-based sort order); this equals
`[0, delta_max)` exactly when `num_bands` divides `delta_max`. -/
theorem z5d_C2_band_cover (ρ : ℤ → ℤ → ℚ) (sqrtN delta_max num_bands : ℤ)
    (hdm : 0 < delta_max) (hnb : 0 < num_bands) (out : List Band)
    (hout : prioritize_delta_bands ρ sqrtN delta_max num_bands = some out)
    (x : ℤ) :
    out.countP (fun b => decide (b.delta_start ≤ x ∧ x < b.delta_end)) =
      if 0 ≤ x ∧ x < Int.fdiv delta_max num_bands * num_bands then 1
      else 0 := by
  set bw : ℤ := Int.fdiv delta_max num_bands with hbwdef
  have hbweq : bw = delta_max / num_bands := Int.fdiv_eq_ediv _ hnb.le
  have hbw : 0 ≤ bw := hbweq ▸ Int.ediv_nonneg hdm.le hnb.le
  set p : Band → Bool :=
    fun b => decide (b.delta_start ≤ x ∧ x < b.delta_end) with hp
  have h1 : out.countP p =
      (rawBands ρ sqrtN delta_max num_bands).countP p := by
    have e1 : (out.map erasePriority).countP p = out.countP p := by
      rw [List.countP_map]
      rfl
    have e2 : ((rawBands ρ sqrtN delta_max num_bands).map erasePriority).countP
        p = (rawBands ρ sqrtN delta_max num_bands).countP p := by
      rw [List.countP_map]
      rfl
    rw [← e1, ← e2]
    exact (prioritize_erase_perm hout).countP_eq p
  rw [h1, rawBands, List.countP_map]
  have hle : ((num_bands.toNat : ℤ)) * bw ≤ delta_max := by
    have hm := Int.ediv_add_emod delta_max num_bands
    have hr := Int.emod_nonneg delta_max (ne_of_gt hnb)
    have hcast : ((num_bands.toNat : ℤ)) = num_bands := by omega
    rw [hcast, hbweq]
    nlinarith [hm, hr]
  have hmain := countP_range_band bw delta_max x num_bands.toNat hbw hle
  have hcast : ((num_bands.toNat : ℤ)) = num_bands := by omega
  rw [hcast] at hmain
  rw [mul_comm num_bands bw] at hmain
  exact hmain

/-- Counterexample to claim C2 as stated: with `delta_max = 10` and
`num_bands = 3` the offset 9 lies in `[0, delta_max)` but is covered by no
band's half-open interval (the last band ends at `3 * (10 // 3) = 9`), so
the union of the intervals is not `[0, delta_max)`. -/
theorem z5d_C2_band_cover_counterexample :
    ((prioritize_delta_bands densityConst 100 10 3).getD []).countP
      (fun b => decide (b.delta_start ≤ 9 ∧ 9 < b.delta_end)) = 0 ∧
    (0 : ℤ) ≤ 9 ∧ (9 : ℤ) < 10 := by decide

/-- Witness for the amended C2: offset 7 is covered exactly once. -/
theorem z5d_C2_band_cover_witness :
    ((prioritize_delta_bands densityConst 100 10 3).getD []).countP
      (fun b => decide (b.delta_start ≤ 7 ∧ 7 < b.delta_end)) = 1 :=
  (z5d_C2_band_cover densityConst 100 10 3 (by decide) (by decide)
      ((prioritize_delta_bands densityConst 100 10 3).getD [])
      (by decide) 7).trans (by decide)

lemma reassign_map_priority (l : List Band) :
    (reassign l).map Band.priority =
      (List.range l.length).map (fun i : ℕ => (i : ℤ)) := by
  apply List.ext_getElem
  · simp [reassign]
  · intro i h1 h2
    simp [reassign, List.getElem_enum]

/-- Claim C7: for every valid input and every density oracle, the band list
returned by `prioritize_delta_bands` is sorted with non-increasing density;
bands with equal density appear in their original ascending-offset order
(the sort is stable); and after sorting the priority field of the i-th band
equals i. -/
theorem z5d_C7_sorted_priorities (ρ : ℤ → ℤ → ℚ)
    (sqrtN delta_max num_bands : ℤ)
    (hdm : 0 < delta_max) (hnb : 0 < num_bands) (out : List Band)
    (hout : prioritize_delta_bands ρ sqrtN delta_max num_bands = some out) :
    List.Pairwise (fun a b : Band =>
      b.density ≤ a.density ∧
        (a.density = b.density → a.delta_start ≤ b.delta_start)) out ∧
    out.map Band.priority =
      (List.range out.length).map (fun i : ℕ => (i : ℤ)) := by
  have hbw : 0 ≤ Int.fdiv delta_max num_bands := by
    rw [Int.fdiv_eq_ediv _ hnb.le]
    exact Int.ediv_nonneg hdm.le hnb.le
  have hout' := prioritize_eq_some hout
  subst hout'
  constructor
  · have hsorted : List.Pairwise bandLeP
        (List.insertionSort bandLeP
          (rawBands ρ sqrtN delta_max num_bands).enum) :=
      List.sorted_insertionSort bandLeP _
    have hds : ∀ q : ℕ × Band, q ∈ List.insertionSort bandLeP
        (rawBands ρ sqrtN delta_max num_bands).enum →
        q.2.delta_start = (q.1 : ℤ) * Int.fdiv delta_max num_bands := by
      intro q hq
      have hq2 : q ∈ (rawBands ρ sqrtN delta_max num_bands).enum :=
        (List.perm_insertionSort bandLeP _).mem_iff.mp hq
      have hg := List.mem_enum_iff_getElem?.mp hq2
      rw [rawBands, List.getElem?_map] at hg
      obtain ⟨j, hj1, hj2⟩ := Option.map_eq_some'.mp hg
      obtain ⟨hlt, hv⟩ := List.getElem?_eq_some.mp hj1
      rw [List.getElem_range] at hv
      subst hv
      rw [← hj2]
      rfl
    have hs2 : List.Pairwise (fun a b : Band =>
        b.density ≤ a.density ∧
          (a.density = b.density → a.delta_start ≤ b.delta_start))
        (sortedBands ρ sqrtN delta_max num_bands) := by
      rw [sortedBands, List.pairwise_map]
      refine hsorted.imp_of_mem ?_
      intro a b ha hb hab
      by_cases hd : a.2.density = b.2.density
      · unfold bandLeP at hab
        rw [if_pos hd] at hab
        refine ⟨le_of_eq hd.symm, fun _ => ?_⟩
        rw [hds a ha, hds b hb]
        exact mul_le_mul_of_nonneg_right (by exact_mod_cast hab) hbw
      · unfold bandLeP at hab
        rw [if_neg hd] at hab
        exact ⟨le_of_lt hab, fun h => absurd h hd⟩
    have hs3 : List.Pairwise (fun p q : ℕ × Band =>
        q.2.density ≤ p.2.density ∧
          (p.2.density = q.2.density → p.2.delta_start ≤ q.2.delta_start))
        (sortedBands ρ sqrtN delta_max num_bands).enum := by
      rw [← List.enum_map_snd (sortedBands ρ sqrtN delta_max num_bands),
        List.pairwise_map] at hs2
      exact hs2
    rw [reassign, List.pairwise_map]
    exact hs3
  · rw [reassign_map_priority, reassign_length]

/-- Witness for C7 at a concrete input: the reassigned priorities are
`0, 1, 2` for `delta_max = 10`, `num_bands = 3`. -/
theorem z5d_C7_sorted_priorities_witness :
    ((prioritize_delta_bands densityConst 100 10 3).getD []).map Band.priority =
      (List.range
        ((prioritize_delta_bands densityConst 100 10 3).getD []).length).map
        (fun i : ℕ => (i : ℤ)) :=
  (z5d_C7_sorted_priorities densityConst 100 10 3 (by decide) (by decide)
    ((prioritize_delta_bands densityConst 100 10 3).getD []) (by decide)).2

lemma scanAux_map_eraseAmp (amp1 amp2 : ℤ → ℚ) (sqrtN dm de : ℤ) (d : ℚ)
    (idx : ℕ) (st : ℤ) :
    ∀ (fuel : ℕ) (δ : ℤ),
      (scanAux amp1 sqrtN dm de d idx st fuel δ).map eraseAmp =
        (scanAux amp2 sqrtN dm de d idx st fuel δ).map eraseAmp := by
  intro fuel
  induction fuel with
  | zero => intro δ; rfl
  | succ fuel ih =>
    intro δ
    simp only [scanAux]
    split_ifs <;> simp [eraseAmp, ih]

/-- Claim C8: the geodesic amplitude never gates admission.  For every
density oracle and every amplitude function, the candidate stream equals
(after erasing the amplitude field) the stream produced with the amplitude
computation replaced by the constant 0: same candidates, same order, all
other fields equal. -/
theorem z5d_C8_amplitude_nongating (ρ : ℤ → ℤ → ℚ) (amp : ℤ → ℚ)
    (N sqrtN delta_max num_bands : ℤ) :
    (generate_z5d_candidates ρ amp N sqrtN delta_max num_bands).map
        (List.map eraseAmp) =
      (generate_z5d_candidates ρ (fun _ => 0) N sqrtN delta_max
          num_bands).map (List.map eraseAmp) := by
  unfold generate_z5d_candidates
  cases hpr : prioritize_delta_bands ρ sqrtN delta_max num_bands with
  | none => rfl
  | some bands =>
    simp only [Option.map_some', Option.some.injEq]
    rw [List.map_flatMap, List.map_flatMap]
    have hfun : ∀ p : ℕ × Band,
        (scan_band amp sqrtN delta_max p.2 p.1).map eraseAmp =
          (scan_band (fun _ => 0) sqrtN delta_max p.2 p.1).map eraseAmp :=
      fun p => scanAux_map_eraseAmp amp (fun _ => 0) sqrtN delta_max
        p.2.delta_end p.2.density p.1 (adaptive_step_size p.2.density 1) _ _
    simp only [hfun]

lemma nextAdmAux_ge : ∀ (fuel : ℕ) (n : ℤ), n ≤ nextAdmAux fuel n := by
  intro fuel
  induction fuel with
  | zero => intro n; exact le_refl n
  | succ fuel ih =>
    intro n
    rw [nextAdmAux]
    split
    · exact le_refl n
    · exact le_trans (by omega) (ih (n + 1))

lemma scanAux_candidate_ge (amp : ℤ → ℚ) (sqrtN dm de : ℤ) (d : ℚ) (idx : ℕ)
    (st : ℤ) (hst : 0 < st) (hs : 2 ≤ sqrtN) :
    ∀ (fuel : ℕ) (δ : ℤ), 0 ≤ δ →
      ∀ c ∈ scanAux amp sqrtN dm de d idx st fuel δ, 2 ≤ c.candidate := by
  intro fuel
  induction fuel with
  | zero =>
    intro δ _ c hc
    simp [scanAux] at hc
  | succ fuel ih =>
    intro δ hδ c hc
    have hadm : sqrtN + δ ≤ nextAdmAux 211 (sqrtN + δ) := nextAdmAux_ge 211 _
    simp only [scanAux, next_admissible] at hc
    split_ifs at hc <;>
      simp only [List.mem_cons, List.mem_append, List.mem_singleton,
        List.not_mem_nil, or_false, false_or] at hc <;>
      (rcases hc with rfl | hc) <;>
      (try rcases hc with rfl | hc) <;>
      first
        | (refine ih _ ?_ _ hc
           omega)
        | (dsimp only
           omega)
        | (simp only [Bool.and_eq_true, decide_eq_true_eq] at *
           try dsimp only
           omega)

lemma searchAux_some_inv (N : ℤ) :
    ∀ (L : List Cand) (budget : ℕ) (p q : ℤ),
      searchAux N budget L = some (p, q) →
      ∃ c ∈ L, c.candidate = p ∧ N % p = 0 ∧ q = Int.fdiv N p := by
  intro L
  induction L with
  | nil =>
    intro budget p q h
    simp [searchAux] at h
  | cons c rest ih =>
    intro budget p q h
    rw [searchAux] at h
    by_cases h1 : N % c.candidate = 0
    · rw [if_pos h1] at h
      have hinj := Option.some.inj h
      have hp : c.candidate = p := congrArg Prod.fst hinj
      have hq : Int.fdiv N c.candidate = q := congrArg Prod.snd hinj
      exact ⟨c, List.mem_cons_self c rest, hp, hp ▸ h1, by rw [← hq, hp]⟩
    · rw [if_neg h1] at h
      by_cases h2 : budget ≤ 1
      · rw [if_pos h2] at h
        exact Option.noConfusion h
      · rw [if_neg h2] at h
        obtain ⟨c', hc', hrest⟩ := ih _ _ _ h
        exact ⟨c', List.mem_cons_of_mem _ hc', hrest⟩

lemma prioritize_mem_shape {ρ : ℤ → ℤ → ℚ} {sqrtN delta_max num_bands : ℤ}
    {out : List Band}
    (hout : prioritize_delta_bands ρ sqrtN delta_max num_bands = some out) :
    ∀ b ∈ out, ∃ i : ℕ,
      b.delta_start = (i : ℤ) * Int.fdiv delta_max num_bands ∧
      b.delta_end =
        min (((i : ℤ) + 1) * Int.fdiv delta_max num_bands) delta_max ∧
      b.density = (mkBand ρ sqrtN delta_max
        (Int.fdiv delta_max num_bands) i).density := by
  intro b hb
  have h1 : erasePriority b ∈ out.map erasePriority :=
    List.mem_map_of_mem _ hb
  have h2 := (prioritize_erase_perm hout).mem_iff.mp h1
  obtain ⟨b', hb', he⟩ := List.mem_map.mp h2
  obtain ⟨i, _, hmk⟩ := List.mem_map.mp (by rw [rawBands] at hb'; exact hb')
  have hds := congrArg Band.delta_start he
  have hde := congrArg Band.delta_end he
  have hdens := congrArg Band.density he
  refine ⟨i, ?_, ?_, ?_⟩
  · rw [show b.delta_start = b'.delta_start from hds.symm, ← hmk]
    rfl
  · rw [show b.delta_end = b'.delta_end from hde.symm, ← hmk]
    rfl
  · rw [show b.density = b'.density from hdens.symm, ← hmk]

lemma isqrt_two_le {N : ℤ} (h : 4 ≤ N) : 2 ≤ isqrt N := by
  have h2 : 2 ≤ Nat.sqrt N.toNat := Nat.le_sqrt.mpr (by omega)
  rw [isqrt, Int.sqrt]
  omega

lemma adaptive_step_one_bounds (d : ℚ) :
    1 ≤ adaptive_step_size d 1 ∧ adaptive_step_size d 1 ≤ 10 := by
  unfold adaptive_step_size
  split
  · constructor <;> norm_num
  · exact ⟨le_min (le_max_left _ _) (by norm_num), min_le_right _ _⟩

/-- Claim C10: for N ≥ 4 every candidate record yielded by
`generate_z5d_candidates` (with `sqrt_N = isqrt N`) has value ≥ 2 —
positive-offset candidates are `sqrt_N + δ` with `δ ≥ 0`, negative-offset
candidates pass an explicit `> 1` check — so the consumer's divisibility
test never divides by zero and a returned factor is never the trivial
divisor 1. -/
theorem z5d_C10_candidates_nontrivial (ρ : ℤ → ℤ → ℚ) (amp : ℤ → ℚ)
    (N delta_max num_bands : ℤ) (L : List Cand) (hN : 4 ≤ N)
    (hgen : generate_z5d_candidates ρ amp N (isqrt N) delta_max num_bands =
      some L) :
    (∀ c ∈ L, 2 ≤ c.candidate) ∧
    (∀ c ∈ L, c.candidate ≠ 0) ∧
    (∀ (mc : ℕ) (p q : ℤ), searchAux N mc L = some (p, q) → 2 ≤ p ∧ p ≠ 1) := by
  have hs : 2 ≤ isqrt N := isqrt_two_le hN
  have hall : ∀ c ∈ L, 2 ≤ c.candidate := by
    intro c hc
    unfold generate_z5d_candidates at hgen
    cases hpr : prioritize_delta_bands ρ (isqrt N) delta_max num_bands with
    | none =>
      rw [hpr] at hgen
      exact Option.noConfusion hgen
    | some bands =>
      rw [hpr] at hgen
      have hL : L = bands.enum.flatMap
          (fun p => scan_band amp (isqrt N) delta_max p.2 p.1) :=
        (Option.some.inj hgen).symm
      subst hL
      obtain ⟨pb, hpb, hcmem⟩ := List.mem_flatMap.mp hc
      have hpb2 : pb.2 ∈ bands := by
        obtain ⟨hlen, heq⟩ := List.mem_enum (x := pb.2) (i := pb.1) hpb
        exact heq ▸ List.getElem_mem hlen
      obtain ⟨i, hds, hde, _⟩ := prioritize_mem_shape hpr pb.2 hpb2
      rw [scan_band] at hcmem
      by_cases hbw : 0 ≤ Int.fdiv delta_max num_bands
      · have hds0 : 0 ≤ pb.2.delta_start :=
          hds ▸ mul_nonneg (Int.natCast_nonneg i) hbw
        exact scanAux_candidate_ge amp (isqrt N) delta_max pb.2.delta_end
          pb.2.density pb.1 _
          (by have := (adaptive_step_one_bounds pb.2.density).1; omega)
          hs _ _ hds0 c hcmem
      · push_neg at hbw
        have h1 : pb.2.delta_end ≤
            ((i : ℤ) + 1) * Int.fdiv delta_max num_bands :=
          hde ▸ min_le_left _ _
        have h2 : ((i : ℤ) + 1) * Int.fdiv delta_max num_bands =
            (i : ℤ) * Int.fdiv delta_max num_bands +
              Int.fdiv delta_max num_bands := by ring
        have hlt : pb.2.delta_end < pb.2.delta_start := by
          rw [hds]
          linarith [h1, h2]
        have hfuel : (pb.2.delta_end - pb.2.delta_start + 1).toNat = 0 := by
          omega
        rw [hfuel] at hcmem
        simp [scanAux] at hcmem
  refine ⟨hall, fun c hc => by have := hall c hc; omega, ?_⟩
  intro mc p q hsearch
  obtain ⟨c', hc', hp, _, _⟩ := searchAux_some_inv N L mc p q hsearch
  have := hall c' hc'
  constructor <;> omega

lemma isqrt_target : isqrt 1073217479 = 32759 := by
  have h : Nat.sqrt 1073217479 = 32759 :=
    (Nat.eq_sqrt.mpr ⟨by norm_num, by norm_num⟩).symm
  rw [isqrt, Int.sqrt]
  rw [show Int.toNat 1073217479 = 1073217479 from rfl, h]
  norm_num

set_option maxRecDepth 8000 in
/-- Witness for C10 at the repository's concrete 30-bit semiprime. -/
theorem z5d_C10_candidates_nontrivial_witness :
    2 ≤ (((generate_z5d_candidates densityConst ampZero 1073217479
        (isqrt 1073217479) 2 1).getD []).headI).candidate :=
  (z5d_C10_candidates_nontrivial densityConst ampZero 1073217479 2 1
      ((generate_z5d_candidates densityConst ampZero 1073217479
        (isqrt 1073217479) 2 1).getD []) (by norm_num)
      (by rw [isqrt_target]; decide)).1 _
    (by rw [isqrt_target]; decide)

/-- Counterexample to claim C3 as stated: `delta_max = 0` is a malformed
input (`delta_max ≤ 0`), yet the pipeline raises no configuration error and
does emit a candidate record — with `num_bands = 1` the single band is
`[0, 0]` and the admissible value `sqrt_N = 32759` is yielded. -/
theorem z5d_C3_counterexample :
    (generate_z5d_candidates densityConst ampZero 1073217479 32759 0 1).map
      (List.map Cand.candidate) = some [32759] ∧ (0 : ℤ) ≤ 0 := by decide

/-- Claim C3 amended: the candidate pipeline performs no input validation.
For `num_bands = 0` the generator dies with a `ZeroDivisionError`
(modelled as `none`) before yielding; for `num_bands < 0` it yields
nothing and raises nothing; and for `delta_max ≤ 0` (or N < 4) with a
positive `num_bands` no error is raised and candidates can still be
emitted — at `delta_max = 0`, `num_bands = 1` the admissible value
`sqrt_N` itself is emitted. -/
theorem z5d_C3_no_validation :
    (∀ (ρ : ℤ → ℤ → ℚ) (amp : ℤ → ℚ) (N sqrtN delta_max : ℤ),
      generate_z5d_candidates ρ amp N sqrtN delta_max 0 = none) ∧
    (∀ (ρ : ℤ → ℤ → ℚ) (amp : ℤ → ℚ) (N sqrtN delta_max num_bands : ℤ),
      num_bands < 0 →
        generate_z5d_candidates ρ amp N sqrtN delta_max num_bands =
          some []) ∧
    (generate_z5d_candidates densityConst ampZero 1073217479 32759 0 1).map
      (List.map Cand.candidate) = some [32759] := by
  refine ⟨fun ρ amp N sqrtN delta_max => rfl, ?_, by decide⟩
  intro ρ amp N sqrtN delta_max num_bands hnb
  have hne : num_bands ≠ 0 := by omega
  have htn : num_bands.toNat = 0 := by omega
  simp [generate_z5d_candidates, prioritize_delta_bands, hne, sortedBands,
    rawBands, reassign, htn]

/-- Witness for the amended C3 at `num_bands = -1`. -/
theorem z5d_C3_no_validation_witness :
    generate_z5d_candidates densityConst ampZero 15 3 5 (-1) = some [] :=
  z5d_C3_no_validation.2.1 densityConst ampZero 15 3 5 (-1) (by decide)

lemma is_admissible_iff (n : ℤ) :
    is_admissible n = true ↔
      n % 2 ≠ 0 ∧ n % 3 ≠ 0 ∧ n % 5 ≠ 0 ∧ n % 7 ≠ 0 := by
  simp [is_admissible, and_assoc]

lemma one_mod_admissible {m : ℤ} (h : m % 210 = 1) : is_admissible m = true := by
  rw [is_admissible_iff]
  omega

lemma nextAdmAux_adm : ∀ (fuel : ℕ) (n : ℤ),
    (∃ j : ℕ, j < fuel ∧ is_admissible (n + j) = true) →
    is_admissible (nextAdmAux fuel n) = true := by
  intro fuel
  induction fuel with
  | zero =>
    intro n h
    obtain ⟨j, hj, _⟩ := h
    omega
  | succ fuel ih =>
    intro n h
    rw [nextAdmAux]
    split
    · assumption
    · rename_i hn
      apply ih
      obtain ⟨j, hj, hadm⟩ := h
      cases j with
      | zero => exact absurd (by simpa using hadm) hn
      | succ j =>
        refine ⟨j, by omega, ?_⟩
        have hcast : n + 1 + (j : ℤ) = n + ((j + 1 : ℕ) : ℤ) := by
          push_cast
          ring
        rw [hcast]
        exact hadm

lemma next_admissible_adm (n : ℤ) :
    is_admissible (next_admissible n) = true := by
  apply nextAdmAux_adm
  have h1 : 0 ≤ (1 - n) % 210 := Int.emod_nonneg _ (by norm_num)
  have h2 : (1 - n) % 210 < 210 := Int.emod_lt_of_pos _ (by norm_num)
  refine ⟨((1 - n) % 210).toNat, by omega, ?_⟩
  apply one_mod_admissible
  have hcast : (((1 - n) % 210).toNat : ℤ) = (1 - n) % 210 :=
    Int.toNat_of_nonneg h1
  rw [hcast]
  omega

lemma scanVals_eq_map (amp : ℤ → ℚ) (sqrtN dm de : ℤ) (d : ℚ) (idx : ℕ)
    (st : ℤ) : ∀ (fuel : ℕ) (δ : ℤ),
    (scanAux amp sqrtN dm de d idx st fuel δ).map Cand.candidate =
      scanVals sqrtN dm de st fuel δ := by
  intro fuel
  induction fuel with
  | zero => intro δ; rfl
  | succ fuel ih =>
    intro δ
    simp only [scanAux, scanVals]
    split_ifs <;> simp [ih]

lemma scanAux_length_le_fuel (amp : ℤ → ℚ) (sqrtN dm de : ℤ) (d : ℚ)
    (idx : ℕ) (st : ℤ) (hsodd : sqrtN % 2 = 1) (hstodd : st % 2 = 1) :
    ∀ (fuel : ℕ) (δ : ℤ),
      (scanAux amp sqrtN dm de d idx st fuel δ).length ≤ fuel := by
  intro fuel
  induction fuel with
  | zero => intro δ; simp [scanAux]
  | succ fuel ih =>
    intro δ
    have hna := next_admissible_adm (sqrtN + δ)
    rw [is_admissible_iff] at hna
    simp only [scanAux]
    split_ifs with h1 h2 h3 h4 h5 h6 h7 h8 <;>
      simp only [List.length_cons, List.length_append, List.length_singleton,
        List.length_nil, Nat.zero_add, Nat.add_zero, zero_add, add_zero]
    all_goals try rw [is_admissible_iff] at h2
    all_goals try simp only [Bool.and_eq_true, decide_eq_true_eq,
      is_admissible_iff] at h5
    all_goals try simp only [Bool.and_eq_true, decide_eq_true_eq,
      is_admissible_iff] at h8
    all_goals first
      | omega
      | exact Nat.add_le_add_right (ih _) 1

lemma scanAux_length_le_two_mul (amp : ℤ → ℚ) (sqrtN dm de : ℤ) (d : ℚ)
    (idx : ℕ) (st : ℤ) (hst : 1 ≤ st) :
    ∀ (fuel k : ℕ) (δ : ℤ), de + 1 ≤ δ + st * k →
      (scanAux amp sqrtN dm de d idx st fuel δ).length ≤ 2 * k := by
  intro fuel
  induction fuel with
  | zero =>
    intro k δ _
    simp [scanAux]
  | succ fuel ih =>
    intro k δ hk
    have hadm : sqrtN + δ ≤ next_admissible (sqrtN + δ) :=
      nextAdmAux_ge 211 (sqrtN + δ)
    simp only [scanAux]
    split_ifs with h1 h2 h3 h4 h5 h6 h7 h8 <;>
      simp only [List.length_cons, List.length_append, List.length_singleton,
        List.length_nil, Nat.zero_add, Nat.add_zero, zero_add, add_zero]
    all_goals try omega
    all_goals (
      rcases Nat.eq_zero_or_pos k with rfl | hkpos
      · exfalso
        simp only [Nat.cast_zero, mul_zero] at hk
        omega
      · have hcast : ((k - 1 : ℕ) : ℤ) = (k : ℤ) - 1 := by omega
        have hmul : st * ((k : ℤ) - 1) = st * (k : ℤ) - st := by ring
        first
          | (have hrec := ih (k - 1) (sqrtN + δ - sqrtN + st)
               (by rw [hcast, hmul]; linarith)
             omega)
          | (have hrec := ih (k - 1) (next_admissible (sqrtN + δ) - sqrtN + st)
               (by rw [hcast, hmul]; linarith)
             omega))

lemma searchAux_finds (N : ℤ) :
    ∀ (L : List Cand) (budget : ℕ), L.length ≤ budget →
      (∃ c ∈ L, N % c.candidate = 0) →
      ∃ p q, searchAux N budget L = some (p, q) ∧ p * q = N := by
  intro L
  induction L with
  | nil =>
    intro budget _ hex
    simp at hex
  | cons c rest ih =>
    intro budget hlen hex
    rw [searchAux]
    by_cases h1 : N % c.candidate = 0
    · refine ⟨c.candidate, Int.fdiv N c.candidate, by rw [if_pos h1], ?_⟩
      rw [Int.fdiv_eq_ediv_of_dvd (Int.dvd_of_emod_eq_zero h1)]
      exact Int.mul_ediv_cancel' (Int.dvd_of_emod_eq_zero h1)
    · rw [if_neg h1]
      obtain ⟨c', hc', hd⟩ := hex
      rcases List.mem_cons.mp hc' with rfl | hmem
      · exact absurd hd h1
      · have hpos := List.length_pos_of_mem hmem
        have hlen' : rest.length + 1 ≤ budget := by
          simpa using hlen
        rw [if_neg (by omega)]
        exact ih (budget - 1) (by omega) ⟨c', hmem, hd⟩

/-- Claim C1: running the pipeline search on N = 1073217479 with
delta_max = 5000, num_bands = 3 and a budget of 10000 candidates yields
(for every density oracle and amplitude function, hence in particular for
the concrete float computations) a candidate record whose value is 32749
or 32771 with `N mod value = 0`, and `z5d_pipeline_search` returns a
factor pair (p, q) with p * q = N. -/
theorem z5d_C1_concrete_search (ρ : ℤ → ℤ → ℚ) (amp : ℤ → ℚ) :
    (∃ c ∈ (generate_z5d_candidates ρ amp 1073217479 (isqrt 1073217479)
        5000 3).getD [],
      (c.candidate = 32749 ∨ c.candidate = 32771) ∧
        (1073217479 : ℤ) % c.candidate = 0) ∧
    (∃ p q : ℤ, z5d_pipeline_search ρ amp 1073217479 10000 5000 3 =
        some (some (p, q)) ∧ p * q = 1073217479) := by
  have hsq : isqrt 1073217479 = 32759 := isqrt_target
  have hpr : prioritize_delta_bands ρ 32759 5000 3 =
      some (reassign (sortedBands ρ 32759 5000 3)) := by
    simp [prioritize_delta_bands]
  set out := reassign (sortedBands ρ 32759 5000 3) with hout
  set L := out.enum.flatMap (fun p => scan_band amp 32759 5000 p.2 p.1)
    with hL
  have hgen : generate_z5d_candidates ρ amp 1073217479 (isqrt 1073217479)
      5000 3 = some L := by
    rw [hsq, generate_z5d_candidates, hpr]
    rfl
  have hgetD : (generate_z5d_candidates ρ amp 1073217479 (isqrt 1073217479)
      5000 3).getD [] = L := by
    rw [hgen]
    rfl
  have hbw : Int.fdiv 5000 3 = 1666 := by decide
  have hraw : rawBands ρ 32759 5000 3 =
      [mkBand ρ 32759 5000 1666 0, mkBand ρ 32759 5000 1666 1,
        mkBand ρ 32759 5000 1666 2] := by
    rw [rawBands, hbw]
    rfl
  have hperm := prioritize_erase_perm hpr
  have hmem0 : erasePriority (mkBand ρ 32759 5000 1666 0) ∈
      out.map erasePriority := by
    apply hperm.mem_iff.mpr
    rw [hraw]
    exact List.mem_map_of_mem _ (List.mem_cons_self _ _)
  obtain ⟨b0, hb0mem, hb0erase⟩ := List.mem_map.mp hmem0
  have hb0ds : b0.delta_start = 0 := by
    have h := congrArg Band.delta_start hb0erase
    norm_num [mkBand, erasePriority] at h
    exact h
  have hb0de : b0.delta_end = 1666 := by
    have h := congrArg Band.delta_end hb0erase
    norm_num [mkBand, erasePriority] at h
    exact h
  obtain ⟨n0, hn0lt, hn0get⟩ := List.mem_iff_getElem.mp hb0mem
  have henum : (n0, b0) ∈ out.enum := by
    apply List.mem_enum_iff_getElem?.mpr
    rw [List.getElem?_eq_getElem hn0lt, hn0get]
  set st := adaptive_step_size b0.density 1 with hstdef
  obtain ⟨hst1, hst10⟩ := adaptive_step_one_bounds b0.density
  have hkey : ∀ s ∈ Finset.Icc (1 : ℤ) 10,
      ((scanVals 32759 5000 1666 s 1667 0).any
        (fun v => v == 32749 || v == 32771)) = true := by decide
  have hany := hkey st (Finset.mem_Icc.mpr ⟨hst1, hst10⟩)
  obtain ⟨v, hvmem, hvval⟩ := List.any_eq_true.mp hany
  have hvval' : v = 32749 ∨ v = 32771 := by
    simpa using hvval
  have hmap := scanVals_eq_map amp 32759 5000 1666 b0.density n0 st 1667 0
  rw [← hmap] at hvmem
  obtain ⟨c, hcmem, hcval⟩ := List.mem_map.mp hvmem
  have hscan : c ∈ scan_band amp 32759 5000 b0 n0 := by
    rw [scan_band, hb0ds, hb0de]
    exact hcmem
  have hcL : c ∈ L := List.mem_flatMap.mpr ⟨(n0, b0), henum, hscan⟩
  have hdvd : (1073217479 : ℤ) % c.candidate = 0 := by
    rcases hvval' with h | h <;> rw [hcval, h] <;> decide
  have hlenbound : ∀ p ∈ out.enum,
      (scan_band amp 32759 5000 p.2 p.1).length ≤ 1668 := by
    intro p hp
    have hp2 : p.2 ∈ out := by
      obtain ⟨hlt, heq⟩ := List.mem_enum (x := p.2) (i := p.1) hp
      exact heq ▸ List.getElem_mem hlt
    obtain ⟨i, hds, hde, _⟩ := prioritize_mem_shape hpr p.2 hp2
    rw [hbw] at hds hde
    obtain ⟨hs1, hs10⟩ := adaptive_step_one_bounds p.2.density
    have h1 : p.2.delta_end ≤ ((i : ℤ) + 1) * 1666 := hde ▸ min_le_left _ _
    have h2 : ((i : ℤ) + 1) * 1666 = (i : ℤ) * 1666 + 1666 := by ring
    have hdiff : p.2.delta_end - p.2.delta_start ≤ 1666 := by
      rw [hds]
      linarith
    rw [scan_band]
    rcases eq_or_lt_of_le hs1 with heq1 | hgt1
    · have hodd : adaptive_step_size p.2.density 1 % 2 = 1 := by omega
      have hplen := scanAux_length_le_fuel amp 32759 5000 p.2.delta_end
        p.2.density p.1 _ (by decide) hodd
        ((p.2.delta_end - p.2.delta_start + 1).toNat) p.2.delta_start
      omega
    · have hk : p.2.delta_end + 1 ≤
          p.2.delta_start + adaptive_step_size p.2.density 1 * ((834 : ℕ) : ℤ) := by
        have h3 : (2 : ℤ) * 834 ≤ adaptive_step_size p.2.density 1 * 834 :=
          mul_le_mul_of_nonneg_right (by omega) (by norm_num)
        rw [hds]
        push_cast
        linarith
      have hplen := scanAux_length_le_two_mul amp 32759 5000 p.2.delta_end
        p.2.density p.1 _ hs1
        ((p.2.delta_end - p.2.delta_start + 1).toNat) 834 p.2.delta_start hk
      omega
  have hlen3 : out.length = 3 := by
    have hpl := hperm.length_eq
    rw [List.length_map, List.length_map, hraw] at hpl
    simpa using hpl
  have hLlen : L.length ≤ 10000 := by
    rw [hL, List.length_flatMap]
    have hsum := List.sum_le_card_nsmul
      (out.enum.map ((fun l => l.length) ∘ fun p =>
        scan_band amp 32759 5000 p.2 p.1)) 1668 (by
        intro x hx
        obtain ⟨p, hp, hxeq⟩ := List.mem_map.mp hx
        exact hxeq ▸ hlenbound p hp)
    rw [List.length_map, List.enum_length, hlen3] at hsum
    have : (3 : ℕ) • 1668 = 5004 := rfl
    calc (out.enum.map (List.length ∘ fun p =>
          scan_band amp 32759 5000 p.2 p.1)).sum
        ≤ 5004 := by
          rw [← this]
          exact hsum
      _ ≤ 10000 := by norm_num
  obtain ⟨p, q, hpq, hmul⟩ :=
    searchAux_finds 1073217479 L 10000 hLlen ⟨c, hcL, hdvd⟩
  constructor
  · rw [hgetD]
    exact ⟨c, hcL, by rw [hcval]; exact hvval', hdvd⟩
  · refine ⟨p, q, ?_, hmul⟩
    rw [z5d_pipeline_search, hgen]
    simp [hpq]
